import Mathlib

/-!
Formal model of the mckoss/aeries core: the time-decay primitives of
`src/timescore/calc.py` (`Score`, `RateLimit`), the scorable-entity wrapper
of `src/timescore/models.py` (`score_now`, `update_scores`) and the
`Cacheable` mixin of `src/mixins.py` (dirty/critical/clean state machine,
request-local and memcache tiers, `ensure_cached`, `deferred_put`).

Real arithmetic stands in for Python floats.  The one float phenomenon the
source itself handles -- `2.0 ** x` underflowing to `0.0`, which makes
`math.log` raise inside `Score.increment`'s try/except -- is modelled
explicitly by `fpow2`.  Mutating methods are modelled as functions from the
old state to the new state (paired with the returned value where the source
returns one).
-/

open Real

open scoped Classical

/-- State of `calc.RateLimit`, fields in the order `__init__` assigns them:
`value`, `threshold`, `k`, `secs_last`. -/
@[ext] structure RateLimit where
  value : ℝ
  threshold : ℝ
  k : ℝ
  secs_last : ℝ

/-- Constructor `RateLimit(threshold, secs_half=60)`:
`value = 0`, `k = 0.5 ** (1.0/secs_half)`, `secs_last = 0`. -/
noncomputable def RateLimit.init (threshold secs_half : ℝ) : RateLimit :=
  { value := 0
    threshold := threshold
    k := (1 / 2 : ℝ) ^ ((1 : ℝ) / secs_half)
    secs_last := 0 }

/-- Method `RateLimit.current_value(secs, value=0)`: if `secs < secs_last` return the
stored value unchanged; otherwise decay the stored value to `secs`, advance
`secs_last`, add `value`, and return the result.  Returns the new limiter
state together with the returned value. -/
noncomputable def RateLimit.current_value (r : RateLimit) (secs value : ℝ) :
    RateLimit × ℝ :=
  if secs < r.secs_last then (r, r.value)
  else
    let v := r.value * r.k ^ (secs - r.secs_last) + value
    ({ r with value := v, secs_last := secs }, v)

/-- Method `RateLimit.is_exceeded(secs, value=1.0)`: fail-safe `True` on backward
time; otherwise compare `current_value(secs) + value` against the threshold
and commit the cost only on success. -/
noncomputable def RateLimit.is_exceeded (r : RateLimit) (secs value : ℝ) :
    RateLimit × Bool :=
  if secs < r.secs_last then (r, true)
  else
    let p := r.current_value secs 0
    if p.2 + value > r.threshold then (p.1, true)
    else ({ p.1 with value := p.1.value + value }, false)

/-- Run a sequence of `is_exceeded(secs, value)` calls, keeping the final
limiter state. -/
noncomputable def RateLimit.run (r : RateLimit) : List (ℝ × ℝ) → RateLimit
  | [] => r
  | e :: rest => ((r.is_exceeded e.1 e.2).1).run rest

/-- Every call of the sequence returns `False` (and hence commits). -/
noncomputable def RateLimit.allPass (r : RateLimit) : List (ℝ × ℝ) → Prop
  | [] => True
  | e :: rest =>
      (r.is_exceeded e.1 e.2).2 = false ∧ ((r.is_exceeded e.1 e.2).1).allPass rest

/-- Run a sequence of read-only `current_value(t, 0)` queries ("peek"),
keeping the limiter state they leave behind. -/
noncomputable def RateLimit.peeks (r : RateLimit) : List ℝ → RateLimit
  | [] => r
  | t :: ts => ((r.current_value t 0).1).peeks ts

/-- The call times of a trace are non-decreasing and start at or after `t0`. -/
def timesMono : ℝ → List (ℝ × ℝ) → Prop
  | _, [] => True
  | t0, e :: rest => t0 ≤ e.1 ∧ timesMono e.1 rest

/-- Total cost carried by a trace of `is_exceeded` calls. -/
def costSum : List (ℝ × ℝ) → ℝ
  | [] => 0
  | e :: rest => e.2 + costSum rest

/-- Python float `2.0 ** x`: exact real `2 ^ x`, except that the float result
underflows to `0.0` once the exponent falls to `-1075` or below (the
smallest positive float is `2 ^ (-1074)`).  This underflow is the behaviour
`Score.increment`'s try/except branch exists for: `math.log(0.0)` raises. -/
noncomputable def fpow2 (x : ℝ) : ℝ :=
  if x ≤ -1075 then 0 else (2 : ℝ) ^ x

/-- State of `calc.Score`, fields in the order `__init__` assigns them:
`time_half`, `k = 0.5 ** (1/time_half)`, `time_last`, `log_score`, and the
output variable `score` (recomputed by every `increment`). -/
@[ext] structure Score where
  time_half : ℝ
  k : ℝ
  time_last : ℝ
  log_score : ℝ
  score : ℝ

/-- The linear score `Score.increment` computes before re-taking the log:
the two branches of the `if time_now > self.time_last` test.  Forward in
time, the stored (log-domain) value is decayed to `time_now` and the raw
increment is added; otherwise the value is left at `time_last` and the
increment is scaled by `k ** (time_last - time_now)`. -/
noncomputable def Score.raw (s : Score) (value time_now : ℝ) : ℝ :=
  if time_now > s.time_last then
    fpow2 (s.log_score - time_now / s.time_half) + value
  else
    fpow2 (s.log_score - s.time_last / s.time_half) +
      s.k ^ (s.time_last - time_now) * value

/-- Method `Score.increment(value, time_now)`: compute the linear score (advancing
`time_last` only in the forward branch), then re-anchor
`log_score = log2(score) + time_last/time_half`.  `math.log` raises exactly
when the linear score is not positive; the except branch then stores the
sentinel `score = 0, log_score = 0` (with `time_last` already advanced).
Python's `time_now=None` default is the same as passing `time_last`. -/
noncomputable def Score.increment (s : Score) (value time_now : ℝ) : Score :=
  let sc := s.raw value time_now
  let tl := if time_now > s.time_last then time_now else s.time_last
  if 0 < sc then
    { s with
        score := sc
        time_last := tl
        log_score := Real.logb 2 sc + tl / s.time_half }
  else
    { s with score := 0, time_last := tl, log_score := 0 }

/-- Constructor `Score(time_half=1.0, log_score=0.0, time_last=0.0)`: sets
`k = 0.5 ** (1/time_half)` and normalises by calling
`increment(0, time_last)` (which overwrites the placeholder `score`). -/
noncomputable def Score.init (time_half log_score time_last : ℝ) : Score :=
  Score.increment
    { time_half := time_half
      k := (1 / 2 : ℝ) ^ ((1 : ℝ) / time_half)
      time_last := time_last
      log_score := log_score
      score := 0 }
    0 time_last

/-- Persisted scoring state the `scorable` decorator adds to an entity: the
configured half-lives, the stored `TS_*_score` log values (a function from
half-life to the stored log score, standing for `getattr`/`setattr` through
`halflife_attr`), and `TS_hrs`.  Times are passed directly in hours
(`hours_from_datetime` is outside the claims). -/
@[ext] structure Entity where
  half_lives : List ℝ
  scores : ℝ → ℝ
  TS_hrs : ℝ

/-- Method `score_now(half_life, dt, value)`: rebuild a transient `Score` from the
stored log score and `TS_hrs` and `increment` it; no attribute of the
entity is written (read-only projection, hence a pure function of `e`). -/
noncomputable def Entity.score_now (e : Entity) (half_life hrs_now value : ℝ) :
    Score :=
  (Score.init half_life (e.scores half_life) e.TS_hrs).increment value hrs_now

/-- Python method call semantics of `score_now`: the entity comes back
unchanged next to the returned transient score. -/
noncomputable def Entity.score_now_call (e : Entity) (half_life hrs_now value : ℝ) :
    Entity × Score :=
  (e, e.score_now half_life hrs_now value)

/-- Method `update_scores(value, dt)`: for each configured half-life, recompute the
score and write `log_score` and `TS_hrs` back onto the entity (each
iteration sees the previous iteration's `TS_hrs`, as in the source's loop).
The `set_dirty()` call made when `value > 0` acts on the `Cacheable` state
modelled separately below. -/
noncomputable def Entity.update_scores (e : Entity) (value hrs_now : ℝ) : Entity :=
  e.half_lives.foldl
    (fun acc half_life =>
      let ts := acc.score_now half_life hrs_now value
      { acc with
          scores := fun h => if h = half_life then ts.log_score else acc.scores h
          TS_hrs := ts.time_last })
    e

/-- Values of `util.enum('clean', 'dirty', 'critical')`: consecutive integer values
0, 1, 2 compared with the integer order. -/
def cache_state.clean : ℕ := 0

def cache_state.dirty : ℕ := 1

def cache_state.critical : ℕ := 2

/-- Per-instance flush state of a `Cacheable` model: `_cache_state`,
`_is_memcached`, and the `_write_rate` throttle (`RateLimit(30)`).  Success
or failure of the durable `db.Model.put` enters as an explicit `durable_ok`
argument wherever the source calls it. -/
@[ext] structure Entry where
  cache_state : ℕ
  is_memcached : Bool
  write_rate : RateLimit

/-- Method `Cacheable.put`: the durable write runs first (its exception propagates
as `.error ()`, leaving the state untouched); on success `_cache_state` is
reset to clean.  The `ensure_cached` tier effect is modelled on `World`. -/
def Cacheable.put (e : Entry) (durable_ok : Bool) : Except Unit Entry :=
  if durable_ok then Except.ok { e with cache_state := cache_state.clean }
  else Except.error ()

/-- Method `Cacheable.set_dirty(state=dirty)`: clear `_is_memcached` and escalate
`_cache_state` to `state` only if that is strictly larger. -/
def Cacheable.set_dirty (e : Entry) (state : ℕ) : Entry :=
  { e with
      is_memcached := false
      cache_state := if e.cache_state < state then state else e.cache_state }

/-- Method `Cacheable.deferred_put`: return immediately when clean; write when
critical, or when dirty and the write-rate throttle does not report
exceeded (the short-circuit skips the throttle query entirely for
critical); the try/except around `self.put()` swallows a durable-store
failure, so the function is total and a failed write leaves the entry (with
its already-updated throttle) behind. -/
noncomputable def Cacheable.deferred_put (e : Entry) (secs_now : ℝ)
    (durable_ok : Bool) : Entry :=
  if e.cache_state = cache_state.clean then e
  else if e.cache_state = cache_state.critical then
    match Cacheable.put e durable_ok with
    | Except.ok e2 => e2
    | Except.error _ => e
  else
    let p := e.write_rate.is_exceeded secs_now 1
    let e1 := { e with write_rate := p.1 }
    if p.2 then e1
    else
      match Cacheable.put e1 durable_ok with
      | Except.ok e2 => e2
      | Except.error _ => e1

/-- The operations of the source that write `_cache_state`. -/
inductive CacheOp where
  | setDirty (state : ℕ)
  | putOp (durable_ok : Bool)
  | deferredPut (secs_now : ℝ) (durable_ok : Bool)

/-- One state-machine step: apply a state-writing operation to an entry
(a failing direct `put` raises past the caller with the state unchanged). -/
noncomputable def Cacheable.step (e : Entry) : CacheOp → Entry
  | CacheOp.setDirty st => Cacheable.set_dirty e st
  | CacheOp.putOp ok =>
      match Cacheable.put e ok with
      | Except.ok e2 => e2
      | Except.error _ => e
  | CacheOp.deferredPut t ok => Cacheable.deferred_put e t ok

/-- The cache tiers `Cacheable` reads and writes: the request-local store
and memcache, each mapping a cache key to an object reference (object
identities and keys are modelled as naturals; the string derivation
`_cache_key` is not claim-relevant), plus each object's `_cache_state` and
`_is_memcached` attribute.  `next_id` mints the fresh object a
`memcache.get` hit unpickles; live objects have identities below it. -/
@[ext] structure World where
  local_store : ℕ → Option ℕ
  memcache : ℕ → Option ℕ
  states : ℕ → ℕ
  memflag : ℕ → Bool
  next_id : ℕ

/-- Method `Cacheable._model_from_cache`: the request-local store is consulted
first; otherwise a memcache hit unpickles a fresh object, installs it in
the local store, and resets its `_cache_state` to clean.  (The source then
sets `_in_memcache` -- a distinct, otherwise-unused attribute -- so the
fresh object's `_is_memcached` keeps its pickled value.) -/
def Cacheable.model_from_cache (w : World) (key : ℕ) : World × Option ℕ :=
  match w.local_store key with
  | some m => (w, some m)
  | none =>
    match w.memcache key with
    | some _ =>
      ({ w with
          local_store := fun key2 => if key2 = key then some w.next_id
            else w.local_store key2
          states := fun n => if n = w.next_id then cache_state.clean else w.states n
          next_id := w.next_id + 1 }, some w.next_id)
    | none => (w, none)

/-- Method `Cacheable._write_to_cache`: unconditionally write the object into both
tiers and set its `_is_memcached` flag. -/
def Cacheable.write_to_cache (w : World) (key m : ℕ) : World :=
  { w with
      local_store := fun key2 => if key2 = key then some m else w.local_store key2
      memcache := fun key2 => if key2 = key then some m else w.memcache key2
      memflag := fun n => if n = m then true else w.memflag n }

/-- Method `Cacheable.ensure_cached`: consult `_model_from_cache`; when it returns
`self`, rewrite the tiers only if `_is_memcached` is unset; when it returns
a different object whose state is not clean, raise `CacheConflict`
(`.error ()`); otherwise overwrite both tiers with `self`. -/
def Cacheable.ensure_cached (w : World) (key self : ℕ) : Except Unit World :=
  match Cacheable.model_from_cache w key with
  | (w1, some m) =>
    if m = self then
      if w1.memflag self = false then Except.ok (Cacheable.write_to_cache w1 key self)
      else Except.ok w1
    else if w1.states m ≠ cache_state.clean then Except.error ()
    else Except.ok (Cacheable.write_to_cache w1 key self)
  | (w1, none) => Except.ok (Cacheable.write_to_cache w1 key self)

/-- On valid (non-backward) times, `is_exceeded` decays the stored value to
`secs`, compares the projected value against the threshold, and commits the
cost only on success. -/
theorem RateLimit.is_exceeded_eq (r : RateLimit) (t c : ℝ) (h : ¬ t < r.secs_last) :
    r.is_exceeded t c =
      if r.value * r.k ^ (t - r.secs_last) + c > r.threshold then
        ({ r with value := r.value * r.k ^ (t - r.secs_last), secs_last := t }, true)
      else
        ({ r with value := r.value * r.k ^ (t - r.secs_last) + c, secs_last := t },
          false) := by
  simp only [RateLimit.is_exceeded, RateLimit.current_value, if_neg h, add_zero]

/-- Both components of `current_value` report the same value: the state's
stored value and the returned value agree. -/
theorem RateLimit.current_value_val (r : RateLimit) (secs value : ℝ) :
    ((r.current_value secs value).1).value = (r.current_value secs value).2 := by
  simp only [RateLimit.current_value]
  split <;> rfl

/-- Total cost of a trace of non-negative costs is non-negative. -/
theorem costSum_nonneg (tr : List (ℝ × ℝ)) (hc : ∀ e ∈ tr, 0 ≤ e.2) :
    0 ≤ costSum tr := by
  induction tr with
  | nil => simp [costSum]
  | cons e rest ih =>
    simp only [costSum]
    exact add_nonneg (hc e (by simp)) (ih fun x hx => hc x (by simp [hx]))

/-- Invariant of any `is_exceeded` trace: the stored value stays within
`[0, threshold]` once it starts there, and `threshold` and `k` are never
written. -/
theorem RateLimit.run_invariant (tr : List (ℝ × ℝ)) (r : RateLimit)
    (hk0 : 0 < r.k) (hk1 : r.k ≤ 1) (hv0 : 0 ≤ r.value) (hvT : r.value ≤ r.threshold)
    (hc : ∀ e ∈ tr, 0 ≤ e.2) :
    0 ≤ (r.run tr).value ∧ (r.run tr).value ≤ r.threshold ∧
      (r.run tr).threshold = r.threshold ∧ (r.run tr).k = r.k := by
  induction tr generalizing r with
  | nil => exact ⟨hv0, hvT, rfl, rfl⟩
  | cons e rest ih =>
    have hc0 : 0 ≤ e.2 := hc e (by simp)
    have hcr : ∀ x ∈ rest, 0 ≤ x.2 := fun x hx => hc x (by simp [hx])
    simp only [RateLimit.run]
    by_cases h1 : e.1 < r.secs_last
    · have hstep : r.is_exceeded e.1 e.2 = (r, true) := by
        simp [RateLimit.is_exceeded, h1]
      rw [hstep]
      exact ih r hk0 hk1 hv0 hvT hcr
    · have hΔ : 0 ≤ e.1 - r.secs_last := by linarith [not_lt.mp h1]
      have hd0 : 0 ≤ r.value * r.k ^ (e.1 - r.secs_last) :=
        mul_nonneg hv0 (Real.rpow_nonneg hk0.le _)
      have hdv : r.value * r.k ^ (e.1 - r.secs_last) ≤ r.value :=
        mul_le_of_le_one_right hv0 (Real.rpow_le_one hk0.le hk1 hΔ)
      rw [RateLimit.is_exceeded_eq r e.1 e.2 h1]
      by_cases h2 : r.value * r.k ^ (e.1 - r.secs_last) + e.2 > r.threshold
      · rw [if_pos h2]
        exact ih _ hk0 hk1 hd0 (le_trans hdv hvT) hcr
      · rw [if_neg h2]
        exact ih _ hk0 hk1 (add_nonneg hd0 hc0) (not_lt.mp h2) hcr

/-- With decay factor in `(0, 1]` and a running budget `B` bounding the
stored value, a trace whose total cost fits under `threshold - B` passes
every call. -/
theorem RateLimit.allPass_of_budget (tr : List (ℝ × ℝ)) (r : RateLimit) (B : ℝ)
    (hk0 : 0 < r.k) (hk1 : r.k ≤ 1) (hv0 : 0 ≤ r.value) (hvB : r.value ≤ B)
    (hc : ∀ e ∈ tr, 0 ≤ e.2) (hm : timesMono r.secs_last tr)
    (hbud : B + costSum tr ≤ r.threshold) : r.allPass tr := by
  induction tr generalizing r B with
  | nil => trivial
  | cons e rest ih =>
    obtain ⟨hte, hm2⟩ := hm
    have h1 : ¬ e.1 < r.secs_last := not_lt.mpr hte
    have hc0 : 0 ≤ e.2 := hc e (by simp)
    have hcr : ∀ x ∈ rest, 0 ≤ x.2 := fun x hx => hc x (by simp [hx])
    have hcsum : 0 ≤ costSum rest := costSum_nonneg rest hcr
    have hΔ : 0 ≤ e.1 - r.secs_last := by linarith
    have hd0 : 0 ≤ r.value * r.k ^ (e.1 - r.secs_last) :=
      mul_nonneg hv0 (Real.rpow_nonneg hk0.le _)
    have hdB : r.value * r.k ^ (e.1 - r.secs_last) ≤ B :=
      le_trans (mul_le_of_le_one_right hv0 (Real.rpow_le_one hk0.le hk1 hΔ)) hvB
    have hsum : costSum (e :: rest) = e.2 + costSum rest := rfl
    rw [hsum] at hbud
    have hnot : ¬ r.value * r.k ^ (e.1 - r.secs_last) + e.2 > r.threshold :=
      not_lt.mpr (by linarith)
    simp only [RateLimit.allPass]
    rw [RateLimit.is_exceeded_eq r e.1 e.2 h1, if_neg hnot]
    refine ⟨rfl, ?_⟩
    exact ih _ (B + e.2) hk0 hk1 (add_nonneg hd0 hc0) (add_le_add hdB le_rfl) hcr hm2
      (by linarith)

/-- Claim C1: `is_exceeded(now, cost)` computes `projected = peek(now) + cost`;
if `projected > threshold` it returns `True` and the stored value gains
nothing from the cost (only the decay is applied); otherwise it commits the
cost and returns `False`.  Consequently, from a fresh limiter with positive
half-life, any sequence of non-negative-cost calls at non-decreasing times
whose cumulative cost stays at or below the threshold never sees `True`. -/
theorem RateLimit.is_exceeded_spec :
    (∀ (r : RateLimit) (now cost : ℝ), r.secs_last ≤ now →
      ((r.current_value now 0).2 + cost > r.threshold →
        r.is_exceeded now cost = ((r.current_value now 0).1, true)) ∧
      ((r.current_value now 0).2 + cost ≤ r.threshold →
        r.is_exceeded now cost =
          ({ (r.current_value now 0).1 with
              value := (r.current_value now 0).2 + cost }, false))) ∧
    (∀ (T h : ℝ) (tr : List (ℝ × ℝ)), 0 < h →
      (∀ e ∈ tr, 0 ≤ e.2) → timesMono 0 tr → costSum tr ≤ T →
      (RateLimit.init T h).allPass tr) := by
  constructor
  · intro r now cost hnow
    have h1 : ¬ now < r.secs_last := not_lt.mpr hnow
    constructor
    · intro h2
      simp only [RateLimit.is_exceeded, if_neg h1]
      rw [if_pos h2]
    · intro h2
      simp only [RateLimit.is_exceeded, if_neg h1]
      rw [if_neg (not_lt.mpr h2), RateLimit.current_value_val]
  · intro T h tr hh hc hm hbud
    have hk0 : 0 < (RateLimit.init T h).k := Real.rpow_pos_of_pos (by norm_num) _
    have hk1 : (RateLimit.init T h).k ≤ 1 :=
      Real.rpow_le_one (by norm_num) (by norm_num) (le_of_lt (one_div_pos.mpr hh))
    exact RateLimit.allPass_of_budget tr (RateLimit.init T h) 0 hk0 hk1 le_rfl le_rfl
      hc hm (by rw [zero_add]; exact hbud)

/-- Claim C10: a limiter constructed with threshold `T ≥ 0` and positive
half-life keeps its stored accumulated value within `[0, T]` across any
sequence of `is_exceeded` calls with non-negative costs and non-decreasing
times: decay only shrinks it, and a cost is committed only when the
projected value stays at or below `T`. -/
theorem RateLimit.value_bounded (T h : ℝ) (tr : List (ℝ × ℝ))
    (hT : 0 ≤ T) (hh : 0 < h)
    (hc : ∀ e ∈ tr, 0 ≤ e.2) (hm : timesMono 0 tr) :
    ((RateLimit.init T h).run tr).value ≤ T ∧
      0 ≤ ((RateLimit.init T h).run tr).value := by
  have hk0 : 0 < (RateLimit.init T h).k := Real.rpow_pos_of_pos (by norm_num) _
  have hk1 : (RateLimit.init T h).k ≤ 1 :=
    Real.rpow_le_one (by norm_num) (by norm_num) (le_of_lt (one_div_pos.mpr hh))
  have inv := RateLimit.run_invariant tr (RateLimit.init T h) hk0 hk1 le_rfl hT hc
  exact ⟨inv.2.1, inv.1⟩

/-- Witness for C10: threshold 100, half-life 60, one call of cost 1 at
time 0 leaves the stored value within `[0, 100]`. -/
theorem RateLimit.value_bounded_witness :
    ((RateLimit.init 100 60).run [(0, 1)]).value ≤ 100 ∧
      0 ≤ ((RateLimit.init 100 60).run [(0, 1)]).value :=
  RateLimit.value_bounded 100 60 [(0, 1)] (by norm_num) (by norm_num)
    (by intro e he; simp at he; simp [he]) (by simp [timesMono])

/-- On valid (non-backward) times, `current_value` decays the stored value,
advances the clock and adds the argument. -/
theorem RateLimit.current_value_eq (r : RateLimit) (secs value : ℝ)
    (h : ¬ secs < r.secs_last) :
    r.current_value secs value =
      ({ r with
          value := r.value * r.k ^ (secs - r.secs_last) + value,
          secs_last := secs },
        r.value * r.k ^ (secs - r.secs_last) + value) := by
  simp only [RateLimit.current_value, if_neg h]

/-- State left behind by a sequence of peeks at times at or before a query
time `tq`: `k` and `threshold` are untouched, the clock does not pass `tq`,
and the value decayed out to `tq` is exactly what it would have been with no
peek at all. -/
theorem RateLimit.peeks_state (ts : List ℝ) (r : RateLimit) (tq : ℝ)
    (hk0 : 0 < r.k) (hl : r.secs_last ≤ tq) (hts : ∀ t ∈ ts, t ≤ tq) :
    (r.peeks ts).k = r.k ∧ (r.peeks ts).threshold = r.threshold ∧
      (r.peeks ts).secs_last ≤ tq ∧
      (r.peeks ts).value * r.k ^ (tq - (r.peeks ts).secs_last) =
        r.value * r.k ^ (tq - r.secs_last) := by
  induction ts generalizing r with
  | nil => exact ⟨rfl, rfl, hl, rfl⟩
  | cons t ts ih =>
    have htq : t ≤ tq := hts t (by simp)
    have hts2 : ∀ x ∈ ts, x ≤ tq := fun x hx => hts x (by simp [hx])
    simp only [RateLimit.peeks]
    by_cases h1 : t < r.secs_last
    · have hcv : (r.current_value t 0).1 = r := by
        simp [RateLimit.current_value, h1]
      rw [hcv]
      exact ih r hk0 hl hts2
    · have hcv : (r.current_value t 0).1 =
          { r with
              value := r.value * r.k ^ (t - r.secs_last),
              secs_last := t } := by
        simp [RateLimit.current_value, h1]
      rw [hcv]
      obtain ⟨hk, hθ, hs, hv⟩ :=
        ih ({ r with
                value := r.value * r.k ^ (t - r.secs_last),
                secs_last := t })
          hk0 htq hts2
      refine ⟨hk, hθ, hs, ?_⟩
      have hv2 : (({ r with
              value := r.value * r.k ^ (t - r.secs_last),
              secs_last := t } : RateLimit).peeks ts).value *
            r.k ^ (tq - (({ r with
              value := r.value * r.k ^ (t - r.secs_last),
              secs_last := t } : RateLimit).peeks ts).secs_last) =
          r.value * r.k ^ (t - r.secs_last) * r.k ^ (tq - t) := hv
      rw [hv2, mul_assoc, ← Real.rpow_add hk0]
      ring_nf

/-- Claim C8 (amended): any number of read-only `current_value(t, 0)` peeks
leaves the results of a subsequent `is_exceeded` or `current_value` call
unchanged, provided the subsequent call's time is at or after every peek
time and the limiter's last-seen time (a subsequent call at a time earlier
than a peek time is treated as backdated, see the counterexample); and on
the scoring side `score_now` writes nothing: the entity comes back from the
call unchanged. -/
theorem RateLimit.peek_transparent (r : RateLimit) (ts : List ℝ) (tq c : ℝ)
    (hk0 : 0 < r.k) (hl : r.secs_last ≤ tq) (hts : ∀ t ∈ ts, t ≤ tq) :
    ((r.peeks ts).is_exceeded tq c = r.is_exceeded tq c ∧
      ∀ v, (r.peeks ts).current_value tq v = r.current_value tq v) ∧
      ∀ (e : Entity) (hlife hrs inc : ℝ),
        (Entity.score_now_call e hlife hrs inc).1 = e := by
  obtain ⟨hk, hθ, hs, hv⟩ := RateLimit.peeks_state ts r tq hk0 hl hts
  have h1 : ¬ tq < r.secs_last := not_lt.mpr hl
  have h2 : ¬ tq < (r.peeks ts).secs_last := not_lt.mpr hs
  refine ⟨⟨?_, ?_⟩, fun e hlife hrs inc => rfl⟩
  · rw [RateLimit.is_exceeded_eq _ tq c h2, RateLimit.is_exceeded_eq r tq c h1,
      hk, hθ, hv]
  · intro v
    rw [RateLimit.current_value_eq _ tq v h2, RateLimit.current_value_eq r tq v h1,
      hk, hθ, hv]

/-- Witness for the amended C8: a fresh limiter (threshold 10, half-life 60)
peeked once at time 3 behaves at time 5 exactly as if never peeked. -/
theorem RateLimit.peek_transparent_witness :
    (((RateLimit.init 10 60).peeks [3]).is_exceeded 5 1 =
        (RateLimit.init 10 60).is_exceeded 5 1 ∧
      ∀ v, ((RateLimit.init 10 60).peeks [3]).current_value 5 v =
        (RateLimit.init 10 60).current_value 5 v) ∧
      ∀ (e : Entity) (hlife hrs inc : ℝ),
        (Entity.score_now_call e hlife hrs inc).1 = e :=
  RateLimit.peek_transparent (RateLimit.init 10 60) [3] 5 1
    (Real.rpow_pos_of_pos (by norm_num) _) (by norm_num [RateLimit.init])
    (by norm_num)

/-- Counterexample to claim C8 as stated: peeking is not observation-free at
every time.  A peek at time 2 advances the limiter's last-seen time, so a
subsequent call back at time 1 is treated as backdated and reports exceeded,
whereas without the peek the same call passes. -/
theorem RateLimit.peek_changes_backdated_call :
    ((((RateLimit.init 10 60).current_value 2 0).1).is_exceeded 1 1).2 = true ∧
      ((RateLimit.init 10 60).is_exceeded 1 1).2 = false := by
  constructor
  · have hcv : ((RateLimit.init 10 60).current_value 2 0).1 =
        { value := 0, threshold := 10, k := (1 / 2 : ℝ) ^ ((1 : ℝ) / 60),
          secs_last := 2 } := by
      norm_num [RateLimit.current_value, RateLimit.init]
    rw [hcv]
    norm_num [RateLimit.is_exceeded]
  · norm_num [RateLimit.is_exceeded, RateLimit.current_value, RateLimit.init]

/-- Claim C9: `is_exceeded` called with a time strictly earlier than the
limiter's last-seen time returns `True` (fail safe) and commits nothing: the
limiter state is returned unchanged. -/
theorem RateLimit.is_exceeded_backward_time (r : RateLimit) (secs value : ℝ)
    (h : secs < r.secs_last) : r.is_exceeded secs value = (r, true) := by
  simp [RateLimit.is_exceeded, h]

/-- Witness for C9: a limiter last seen at time 5, queried at time 3, reports
exceeded and is left unchanged. -/
theorem RateLimit.is_exceeded_backward_time_witness :
    RateLimit.is_exceeded ⟨0, 10, 1 / 2, 5⟩ 3 1 = (⟨0, 10, 1 / 2, 5⟩, true) :=
  RateLimit.is_exceeded_backward_time ⟨0, 10, 1 / 2, 5⟩ 3 1 (by norm_num)

theorem fpow2_nonneg (x : ℝ) : 0 ≤ fpow2 x := by
  unfold fpow2
  split
  · exact le_rfl
  · exact Real.rpow_nonneg (by norm_num) x

theorem fpow2_of_le (x : ℝ) (h : x ≤ -1075) : fpow2 x = 0 := if_pos h

/-- Claim C2: when `increment` is called with `time_now <= time_last`
(including equal), the stored value is not decayed forward; the increment is
scaled by `k ^ (time_last - time_now)` before being added, and `time_last`
is left unchanged. -/
theorem Score.increment_backdated (s : Score) (value time_now : ℝ)
    (ht : time_now ≤ s.time_last) (hval : 0 ≤ value) (hk : 0 ≤ s.k) :
    (s.increment value time_now).time_last = s.time_last ∧
      (s.increment value time_now).score =
        fpow2 (s.log_score - s.time_last / s.time_half) +
          s.k ^ (s.time_last - time_now) * value := by
  have h1 : ¬ time_now > s.time_last := not_lt.mpr ht
  have hraw : s.raw value time_now =
      fpow2 (s.log_score - s.time_last / s.time_half) +
        s.k ^ (s.time_last - time_now) * value := by
    simp only [Score.raw, if_neg h1]
  have hnn : 0 ≤ s.raw value time_now := by
    rw [hraw]
    exact add_nonneg (fpow2_nonneg _) (mul_nonneg (Real.rpow_nonneg hk _) hval)
  constructor
  · simp only [Score.increment, if_neg h1]
    by_cases h2 : 0 < s.raw value time_now
    · rw [if_pos h2]
    · rw [if_neg h2]
  · simp only [Score.increment, if_neg h1]
    by_cases h2 : 0 < s.raw value time_now
    · rw [if_pos h2]
      exact hraw
    · rw [if_neg h2]
      have h0 : s.raw value time_now = 0 := le_antisymm (not_lt.mp h2) hnn
      rw [← hraw, h0]

/-- Witness for C2: a register at `time_last = 2` (half-life 1, log 1)
incremented by 1 at the equal time 2 keeps `time_last = 2` and adds the
unscaled increment to the undecaying value. -/
theorem Score.increment_backdated_witness :
    ((⟨1, 1 / 2, 2, 1, 2⟩ : Score).increment 1 2).time_last = 2 ∧
      ((⟨1, 1 / 2, 2, 1, 2⟩ : Score).increment 1 2).score =
        fpow2 (1 - 2 / 1) + (1 / 2 : ℝ) ^ ((2 : ℝ) - 2) * 1 :=
  Score.increment_backdated ⟨1, 1 / 2, 2, 1, 2⟩ 1 2 le_rfl
    (by norm_num : (0 : ℝ) ≤ 1) (by norm_num : (0 : ℝ) ≤ 1 / 2)

/-- Claim C4: a register update never stores a negative score (a real model
has no NaN); whenever the computed linear value underflows to zero or its
logarithm is undefined (value not positive), the stored register is the
sentinel `log_score = 0, score = 0`; and advancing with non-positive growth
at any sufficiently late time lands on (and, since the sentinel has
`log_score = 0`, stays at) that sentinel, because `2.0 ** x` underflows once
the elapsed time exceeds `time_half * (log_score + 1075)`. -/
theorem Score.underflow_sentinel :
    (∀ (s : Score) (value time_now : ℝ), 0 ≤ (s.increment value time_now).score) ∧
    (∀ (s : Score) (value time_now : ℝ), s.raw value time_now ≤ 0 →
      (s.increment value time_now).score = 0 ∧
        (s.increment value time_now).log_score = 0) ∧
    (∀ (s : Score) (value time_now : ℝ), 0 < s.time_half →
      s.time_last < time_now → value ≤ 0 →
      s.time_half * (s.log_score + 1075) ≤ time_now →
      (s.increment value time_now).score = 0 ∧
        (s.increment value time_now).log_score = 0 ∧
        (s.increment value time_now).time_last = time_now) := by
  refine ⟨?_, ?_, ?_⟩
  · intro s value time_now
    simp only [Score.increment]
    by_cases h2 : 0 < s.raw value time_now
    · rw [if_pos h2]
      exact h2.le
    · rw [if_neg h2]
  · intro s value time_now h
    simp only [Score.increment, if_neg (not_lt.mpr h)]
    exact ⟨trivial, trivial⟩
  · intro s value time_now hh ht2 hvle hlate
    have hcomm : (s.log_score + 1075) * s.time_half ≤ time_now := by
      rw [mul_comm]
      exact hlate
    have hdiv : s.log_score + 1075 ≤ time_now / s.time_half :=
      (le_div_iff₀ hh).mpr hcomm
    have hexp : s.log_score - time_now / s.time_half ≤ -1075 := by linarith
    have hraw : s.raw value time_now = value := by
      simp only [Score.raw, if_pos ht2]
      rw [fpow2_of_le _ hexp, zero_add]
    have hneg : ¬ 0 < s.raw value time_now := by
      rw [hraw]
      exact not_lt.mpr hvle
    simp only [Score.increment, if_neg hneg, if_pos ht2]
    exact ⟨trivial, trivial, trivial⟩

/-- Fresh register with half-life 24: the constructor's normalising
`increment(0, 0)` leaves score 1, log 0. -/
theorem Score.init_day_fresh :
    Score.init 24 0 0 = ⟨24, (1 / 2 : ℝ) ^ ((1 : ℝ) / 24), 0, 0, 1⟩ := by
  norm_num [Score.init, Score.increment, Score.raw, fpow2, Real.rpow_zero,
    Real.logb_one]

/-- Recording weight 1 at time 0 on the fresh register: score 2, log 1. -/
theorem Score.incr_day_event :
    (⟨24, (1 / 2 : ℝ) ^ ((1 : ℝ) / 24), 0, 0, 1⟩ : Score).increment 1 0 =
      ⟨24, (1 / 2 : ℝ) ^ ((1 : ℝ) / 24), 0, 1, 2⟩ := by
  norm_num [Score.increment, Score.raw, fpow2, Real.rpow_zero,
    Real.logb_self_eq_one]

/-- Reconstructing a register with stored log 1 at time 0: score 2. -/
theorem Score.init_day_one :
    Score.init 24 1 0 = ⟨24, (1 / 2 : ℝ) ^ ((1 : ℝ) / 24), 0, 1, 2⟩ := by
  norm_num [Score.init, Score.increment, Score.raw, fpow2, Real.rpow_one,
    Real.logb_self_eq_one]

/-- Advancing that register one half-life with no increment: score 1. -/
theorem Score.incr_day_later :
    (⟨24, (1 / 2 : ℝ) ^ ((1 : ℝ) / 24), 0, 1, 2⟩ : Score).increment 0 24 =
      ⟨24, (1 / 2 : ℝ) ^ ((1 : ℝ) / 24), 24, 1, 1⟩ := by
  norm_num [Score.increment, Score.raw, fpow2, Real.rpow_zero, Real.logb_one]

/-- Recording weight 1 at time 0 on a fresh half-life-24 entity stores
log score 1 under half-life 24 and leaves `TS_hrs = 0`. -/
theorem Entity.update_scores_fresh_eval :
    (⟨[24], fun _ => 0, 0⟩ : Entity).update_scores 1 0 =
      ⟨[24], fun h => if h = 24 then 1 else 0, 0⟩ := by
  have h1 : (⟨[24], fun _ => 0, 0⟩ : Entity).score_now 24 0 1 =
      ⟨24, (1 / 2 : ℝ) ^ ((1 : ℝ) / 24), 0, 1, 2⟩ := by
    show (Score.init 24 0 0).increment 1 0 =
      ⟨24, (1 / 2 : ℝ) ^ ((1 : ℝ) / 24), 0, 1, 2⟩
    rw [Score.init_day_fresh, Score.incr_day_event]
  simp only [Entity.update_scores, List.foldl, h1]

/-- Counterexample to claim C3 as stated: on a fresh entity with half-life
24, recording a single event of weight 1 at time 0 stores an ordering key
(log score) different from `0.0` -- the code stores `log2(1 + 1) = 1.0`,
consistent with the spec's own `scoreAt(halfLife, 0) == 1 + w`. -/
theorem Entity.fresh_event_log_score_ne_zero :
    ((⟨[24], fun _ => 0, 0⟩ : Entity).update_scores 1 0).scores 24 ≠ 0 := by
  rw [Entity.update_scores_fresh_eval]
  norm_num

/-- Claim C3 (amended): on a fresh entity with half-life 24, recording a
single event of weight 1 at time 0 stores ordering key `1.0` (score 2 at
time 0, log2 2 = 1) with `TS_hrs = 0`, and the read-only projected linear
score at time 24 equals `1.0`. -/
theorem Entity.fresh_event_scores :
    ((⟨[24], fun _ => 0, 0⟩ : Entity).update_scores 1 0).scores 24 = 1 ∧
      ((⟨[24], fun _ => 0, 0⟩ : Entity).update_scores 1 0).TS_hrs = 0 ∧
      (((⟨[24], fun _ => 0, 0⟩ : Entity).update_scores 1 0).score_now 24 24 0).score
        = 1 := by
  rw [Entity.update_scores_fresh_eval]
  refine ⟨by norm_num, rfl, ?_⟩
  have h1 : (⟨[24], fun h => if h = 24 then 1 else 0, 0⟩ : Entity).score_now 24 24 0 =
      ⟨24, (1 / 2 : ℝ) ^ ((1 : ℝ) / 24), 24, 1, 1⟩ := by
    show (Score.init 24 (if (24 : ℝ) = 24 then (1 : ℝ) else 0) 0).increment 0 24 =
      ⟨24, (1 / 2 : ℝ) ^ ((1 : ℝ) / 24), 24, 1, 1⟩
    rw [if_pos rfl, Score.init_day_one, Score.incr_day_later]
  rw [h1]

/-- A failing durable write inside `deferred_put` leaves `_cache_state`
unchanged (the except branch only logs). -/
theorem Cacheable.deferred_put_fail_state (e : Entry) (t : ℝ) :
    (Cacheable.deferred_put e t false).cache_state = e.cache_state := by
  have hp : ∀ x : Entry, Cacheable.put x false = Except.error () := fun _ => rfl
  by_cases hc : e.cache_state = cache_state.clean
  · simp only [Cacheable.deferred_put, if_pos hc]
  · by_cases hcrit : e.cache_state = cache_state.critical
    · simp only [Cacheable.deferred_put, if_neg hc, if_pos hcrit, hp]
    · simp only [Cacheable.deferred_put, if_neg hc, if_neg hcrit, hp, ite_self]

/-- Claim C5: every `set_dirty` call stores the maximum of the old state and
the requested state, so it only escalates along clean < dirty < critical and
never decreases; and among the operations that write `_cache_state`, a
non-clean entry returns to clean only through a put whose durable write
succeeds (directly, or from inside `deferred_put`). -/
theorem Cacheable.state_monotone :
    (∀ (e : Entry) (st : ℕ),
      e.cache_state ≤ (Cacheable.set_dirty e st).cache_state ∧
        (Cacheable.set_dirty e st).cache_state = max e.cache_state st) ∧
    (∀ (e : Entry) (op : CacheOp),
      e.cache_state ≠ cache_state.clean →
      (Cacheable.step e op).cache_state = cache_state.clean →
      op = CacheOp.putOp true ∨ ∃ t, op = CacheOp.deferredPut t true) := by
  constructor
  · intro e st
    simp only [Cacheable.set_dirty]
    by_cases h : e.cache_state < st
    · rw [if_pos h]
      exact ⟨h.le, (max_eq_right h.le).symm⟩
    · rw [if_neg h]
      exact ⟨le_rfl, (max_eq_left (not_lt.mp h)).symm⟩
  · intro e op hne hcl
    cases op with
    | setDirty st =>
      exfalso
      simp only [Cacheable.step, Cacheable.set_dirty] at hcl
      by_cases h : e.cache_state < st
      · rw [if_pos h] at hcl
        rw [hcl] at h
        exact Nat.not_lt_zero _ h
      · rw [if_neg h] at hcl
        exact hne hcl
    | putOp ok =>
      cases ok with
      | true => exact Or.inl rfl
      | false =>
        exfalso
        have hstep : Cacheable.step e (CacheOp.putOp false) = e := rfl
        rw [hstep] at hcl
        exact hne hcl
    | deferredPut t ok =>
      cases ok with
      | true => exact Or.inr ⟨t, rfl⟩
      | false =>
        exfalso
        have hstep : Cacheable.step e (CacheOp.deferredPut t false) =
            Cacheable.deferred_put e t false := rfl
        rw [hstep, Cacheable.deferred_put_fail_state] at hcl
        exact hne hcl

/-- Claim C7: `deferred_put` is a no-op (entry returned untouched, limiter
included) when the entry is clean; and when the durable-store write fails,
`deferred_put` still returns normally -- the except branch swallows the
error, which is why the model is a total function into `Entry` -- and the
cache state is left unchanged, still dirty or critical, so a later flush
attempt can retry. -/
theorem Cacheable.deferred_put_spec :
    (∀ (e : Entry) (t : ℝ) (ok : Bool), e.cache_state = cache_state.clean →
      Cacheable.deferred_put e t ok = e) ∧
    (∀ (e : Entry) (t : ℝ),
      (Cacheable.deferred_put e t false).cache_state = e.cache_state) := by
  constructor
  · intro e t ok hc
    simp only [Cacheable.deferred_put, if_pos hc]
  · exact Cacheable.deferred_put_fail_state

/-- After `_write_to_cache`, both tiers map the key to the written object
and its `_is_memcached` flag is set. -/
theorem Cacheable.write_to_cache_post (w : World) (key m : ℕ) :
    (Cacheable.write_to_cache w key m).local_store key = some m ∧
      (Cacheable.write_to_cache w key m).memcache key = some m ∧
      (Cacheable.write_to_cache w key m).memflag m = true := by
  refine ⟨?_, ?_, ?_⟩ <;> simp [Cacheable.write_to_cache]

/-- Claim C6 (amended): `ensure_cached` fails with `CacheConflict` exactly
when the request-scoped tier already holds a different object than the
argument under the same key and that object's state is not clean.
Otherwise it succeeds; afterwards the request tier holds the argument and
the argument's `_is_memcached` flag is set, and the distributed tier holds
the argument too -- except on the early return taken when the request tier
already held the argument with `_is_memcached` set, where nothing is
rewritten (so a distributed-tier copy evicted in the meantime is not
restored). -/
theorem Cacheable.ensure_cached_spec (w : World) (key self : ℕ)
    (hfresh : self < w.next_id) :
    (Cacheable.ensure_cached w key self = Except.error () ↔
      ∃ m, w.local_store key = some m ∧ m ≠ self ∧
        w.states m ≠ cache_state.clean) ∧
    ∀ w2, Cacheable.ensure_cached w key self = Except.ok w2 →
      w2.local_store key = some self ∧ w2.memflag self = true ∧
      (w2.memcache key = some self ∨
        (w.local_store key = some self ∧ w.memflag self = true ∧ w2 = w)) := by
  cases hl : w.local_store key with
  | none =>
    cases hmc : w.memcache key with
    | none =>
      have hec : Cacheable.ensure_cached w key self =
          Except.ok (Cacheable.write_to_cache w key self) := by
        simp only [Cacheable.ensure_cached, Cacheable.model_from_cache, hl, hmc]
      constructor
      · rw [hec]
        constructor
        · intro herr
          exact absurd herr (fun hcon => Except.noConfusion hcon)
        · rintro ⟨m, hm, -, -⟩
          exact Option.noConfusion hm
      · intro w2 h2
        rw [hec] at h2
        injection h2 with h3
        subst h3
        obtain ⟨p1, p2, p3⟩ := Cacheable.write_to_cache_post w key self
        exact ⟨p1, p3, Or.inl p2⟩
    | some x =>
      have hne : ¬ (w.next_id = self) := by omega
      have hec : Cacheable.ensure_cached w key self =
          Except.ok (Cacheable.write_to_cache
            { w with
                local_store := fun key2 => if key2 = key then some w.next_id
                  else w.local_store key2
                states := fun n => if n = w.next_id then cache_state.clean
                  else w.states n
                next_id := w.next_id + 1 } key self) := by
        simp only [Cacheable.ensure_cached, Cacheable.model_from_cache, hl, hmc]
        rw [if_neg hne, if_neg (not_not_intro (by simp))]
      constructor
      · rw [hec]
        constructor
        · intro herr
          exact absurd herr (fun hcon => Except.noConfusion hcon)
        · rintro ⟨m, hm, -, -⟩
          exact Option.noConfusion hm
      · intro w2 h2
        rw [hec] at h2
        injection h2 with h3
        subst h3
        obtain ⟨p1, p2, p3⟩ := Cacheable.write_to_cache_post
          { w with
              local_store := fun key2 => if key2 = key then some w.next_id
                else w.local_store key2
              states := fun n => if n = w.next_id then cache_state.clean
                else w.states n
              next_id := w.next_id + 1 } key self
        exact ⟨p1, p3, Or.inl p2⟩
  | some m =>
    have hmf : Cacheable.model_from_cache w key = (w, some m) := by
      simp only [Cacheable.model_from_cache, hl]
    by_cases hms : m = self
    · subst hms
      by_cases hf : w.memflag m = false
      · have hec : Cacheable.ensure_cached w key m =
            Except.ok (Cacheable.write_to_cache w key m) := by
          simp only [Cacheable.ensure_cached, hmf]
          rw [if_pos trivial, if_pos hf]
        constructor
        · rw [hec]
          constructor
          · intro herr
            exact absurd herr (fun hcon => Except.noConfusion hcon)
          · rintro ⟨m2, hm2, hne2, -⟩
            exact absurd (Option.some.inj hm2).symm hne2
        · intro w2 h2
          rw [hec] at h2
          injection h2 with h3
          subst h3
          obtain ⟨p1, p2, p3⟩ := Cacheable.write_to_cache_post w key m
          exact ⟨p1, p3, Or.inl p2⟩
      · have hft : w.memflag m = true := by
          revert hf
          cases w.memflag m <;> simp
        have hec : Cacheable.ensure_cached w key m = Except.ok w := by
          simp only [Cacheable.ensure_cached, hmf]
          rw [if_pos trivial, if_neg hf]
        constructor
        · rw [hec]
          constructor
          · intro herr
            exact absurd herr (fun hcon => Except.noConfusion hcon)
          · rintro ⟨m2, hm2, hne2, -⟩
            exact absurd (Option.some.inj hm2).symm hne2
        · intro w2 h2
          rw [hec] at h2
          injection h2 with h3
          subst h3
          exact ⟨hl, hft, Or.inr ⟨rfl, hft, rfl⟩⟩
    · by_cases hs : w.states m ≠ cache_state.clean
      · have hec : Cacheable.ensure_cached w key self = Except.error () := by
          simp only [Cacheable.ensure_cached, hmf]
          rw [if_neg hms, if_pos hs]
        constructor
        · rw [hec]
          exact ⟨fun _ => ⟨m, rfl, hms, hs⟩, fun _ => rfl⟩
        · intro w2 h2
          rw [hec] at h2
          exact absurd h2 (fun hcon => Except.noConfusion hcon)
      · have hec : Cacheable.ensure_cached w key self =
            Except.ok (Cacheable.write_to_cache w key self) := by
          simp only [Cacheable.ensure_cached, hmf]
          rw [if_neg hms, if_neg hs]
        constructor
        · rw [hec]
          constructor
          · intro herr
            exact absurd herr (fun hcon => Except.noConfusion hcon)
          · rintro ⟨m2, hm2, -, hs2⟩
            cases Option.some.inj hm2
            exact absurd hs2 hs
        · intro w2 h2
          rw [hec] at h2
          injection h2 with h3
          subst h3
          obtain ⟨p1, p2, p3⟩ := Cacheable.write_to_cache_post w key self
          exact ⟨p1, p3, Or.inl p2⟩

/-- Witness for the amended C6: in an empty world (one live object, id 0),
`ensure_cached` succeeds and installs the object in both tiers. -/
theorem Cacheable.ensure_cached_spec_witness :
    (Cacheable.ensure_cached
        ⟨fun _ => none, fun _ => none, fun _ => 0, fun _ => false, 1⟩ 0 0 =
          Except.error () ↔
      ∃ m, (⟨fun _ => none, fun _ => none, fun _ => 0, fun _ => false, 1⟩ :
          World).local_store 0 = some m ∧ m ≠ 0 ∧
        (⟨fun _ => none, fun _ => none, fun _ => 0, fun _ => false, 1⟩ :
          World).states m ≠ cache_state.clean) ∧
    ∀ w2, Cacheable.ensure_cached
        ⟨fun _ => none, fun _ => none, fun _ => 0, fun _ => false, 1⟩ 0 0 =
          Except.ok w2 →
      w2.local_store 0 = some 0 ∧ w2.memflag 0 = true ∧
      (w2.memcache 0 = some 0 ∨
        ((⟨fun _ => none, fun _ => none, fun _ => 0, fun _ => false, 1⟩ :
            World).local_store 0 = some 0 ∧
          (⟨fun _ => none, fun _ => none, fun _ => 0, fun _ => false, 1⟩ :
            World).memflag 0 = true ∧
          w2 = ⟨fun _ => none, fun _ => none, fun _ => 0, fun _ => false, 1⟩)) :=
  Cacheable.ensure_cached_spec
    ⟨fun _ => none, fun _ => none, fun _ => 0, fun _ => false, 1⟩ 0 0
    (by norm_num)

/-- Counterexample to claim C6 as stated: a success of `ensure_cached` does
not always install the argument into the distributed tier.  Here the
request tier already holds the argument (id 0) whose `_is_memcached` flag is
set while memcache does not hold the key (as after a TTL eviction):
`ensure_cached` takes the early return, succeeds, and leaves the distributed
tier without the entry. -/
theorem Cacheable.ensure_cached_skips_memcache :
    Cacheable.ensure_cached
        ⟨fun key2 => if key2 = 0 then some 0 else none, fun _ => none,
          fun _ => 0, fun _ => true, 1⟩ 0 0 =
      Except.ok (⟨fun key2 => if key2 = 0 then some 0 else none, fun _ => none,
          fun _ => 0, fun _ => true, 1⟩ : World) ∧
    (⟨fun key2 => if key2 = 0 then some 0 else none, fun _ => none,
        fun _ => 0, fun _ => true, 1⟩ : World).memcache 0 = none := by
  constructor
  · rfl
  · rfl
